import Mathlib

/-!
Verification of the evaluation adapter layer of `eval/score_eval.py`.

Texts are modelled as `List Char` (Python `str` is a sequence of characters);
values that may be `None` are modelled as `Option`.
-/

/-- Model of Python `text.replace("\\'", "'")`: scan left to right, replacing
each non-overlapping occurrence of backslash+apostrophe by an apostrophe. -/
def replaceBA : List Char → List Char
  | [] => []
  | [c] => [c]
  | c1 :: c2 :: rest =>
    if c1 = '\\' && c2 = '\'' then '\'' :: replaceBA rest
    else c1 :: replaceBA (c2 :: rest)

/-- Model of `FixJsonChatOpenAI._fix_json`: `if not text: return ""` then
`text.replace(r"\'", "'")`.  The argument is `Option` so that a `None`
input (falsy in Python) is covered. -/
def fix_json (text : Option (List Char)) : List Char :=
  match text with
  | Option.none => []
  | some t => if t = [] then [] else replaceBA t

/-- `hasBA t = true` iff `t` contains the two-character sequence
backslash+apostrophe. -/
def hasBA : List Char → Bool
  | c1 :: c2 :: rest => (c1 = '\\' && c2 = '\'') || hasBA (c2 :: rest)
  | _ => false

/-- `hasBBA t = true` iff `t` contains the three-character sequence
backslash+backslash+apostrophe. -/
def hasBBA : List Char → Bool
  | c1 :: c2 :: c3 :: rest => (c1 = '\\' && c2 = '\\' && c3 = '\'') || hasBBA (c2 :: c3 :: rest)
  | _ => false

theorem hasBA_cons (c : Char) (xs : List Char) :
    hasBA (c :: xs) = ((decide (c = '\\') && decide (xs.head? = some '\'')) || hasBA xs) := by
  cases xs with
  | nil => simp [hasBA]
  | cons d r => simp [hasBA]

theorem hasBBA_tail {c : Char} {xs : List Char} (h : hasBBA (c :: xs) = false) :
    hasBBA xs = false := by
  match xs with
  | [] => rfl
  | [d] => rfl
  | d :: e :: r =>
    simp only [hasBBA, Bool.or_eq_false_iff] at h
    exact h.2

theorem replaceBA_head (c : Char) (r : List Char) :
    (replaceBA (c :: r)).head? = some c ∨
      (c = '\\' ∧ r.head? = some '\'' ∧ (replaceBA (c :: r)).head? = some '\'') := by
  cases r with
  | nil => left; rfl
  | cons d r' =>
    by_cases hb : c = '\\' && d = '\''
    · right
      simp only [Bool.and_eq_true, decide_eq_true_eq] at hb
      refine ⟨hb.1, by simp [hb.2], ?_⟩
      simp [replaceBA, hb.1, hb.2]
    · left
      simp [replaceBA, hb]

/-- If a text contains no backslash+apostrophe, the replacement leaves it
unchanged. -/
theorem replaceBA_of_not_hasBA : ∀ {t : List Char}, hasBA t = false → replaceBA t = t := by
  intro t
  induction t with
  | nil => intro _; rfl
  | cons c rest ih =>
    intro h
    cases rest with
    | nil => rfl
    | cons d r =>
      simp only [hasBA, Bool.or_eq_false_iff, Bool.and_eq_false_iff] at h
      have hguard : (decide (c = '\\') && decide (d = '\'')) = false := by
        rcases h.1 with h1 | h1 <;> simp [h1]
      have htail : hasBA (d :: r) = false := h.2
      simp only [replaceBA, hguard, Bool.false_eq_true, if_false]
      rw [ih htail]

/-- If a text contains no backslash+backslash+apostrophe, the output of the
replacement contains no backslash+apostrophe. -/
theorem hasBA_replaceBA_of_not_hasBBA :
    ∀ {t : List Char}, hasBBA t = false → hasBA (replaceBA t) = false := by
  intro t
  induction t using replaceBA.induct with
  | case1 => intro _; rfl
  | case2 c => intro _; rfl
  | case3 c1 c2 rest hg ih =>
    intro h
    simp only [Bool.and_eq_true, decide_eq_true_eq] at hg
    obtain ⟨rfl, rfl⟩ := hg
    have htail : hasBBA rest = false := hasBBA_tail (hasBBA_tail h)
    have hxs : hasBA (replaceBA rest) = false := ih htail
    simp only [replaceBA, decide_True, Bool.and_self, if_true]
    rw [hasBA_cons]
    simp [hxs]
  | case4 c1 c2 rest hg ih =>
    intro h
    have htail : hasBBA (c2 :: rest) = false := hasBBA_tail h
    have hxs : hasBA (replaceBA (c2 :: rest)) = false := ih htail
    simp only [replaceBA, hg, Bool.false_eq_true, if_false]
    rw [hasBA_cons]
    refine Bool.or_eq_false_iff.mpr ⟨?_, hxs⟩
    by_cases hc1 : c1 = '\\'
    · subst hc1
      rcases replaceBA_head c2 rest with hh | ⟨hc2, hr, _⟩
      · have hc2 : ¬ (c2 = '\'') := by
          intro hc2
          subst hc2
          simp at hg
        simp only [hh]
        simp [hc2]
      · subst hc2
        cases rest with
        | nil => simp at hr
        | cons e r' =>
          simp only [List.head?] at hr
          have he : e = '\'' := by injection hr
          subst he
          simp [hasBBA] at h
    · simp [hc1]

example : replaceBA ['\\', '\\', '\''] = ['\\', '\''] := by decide
example : replaceBA ['\\', '\''] = ['\''] := by decide
example : hasBBA ['\\', '\\', '\''] = true := by decide

theorem fix_json_some_eq_replaceBA (t : List Char) : fix_json (some t) = replaceBA t := by
  cases t with
  | nil => rfl
  | cons c r => simp [fix_json]

/-- `hasBA` decides containment of the backslash+apostrophe sequence. -/
theorem hasBA_iff (t : List Char) :
    hasBA t = true ↔ ∃ p s, t = p ++ '\\' :: '\'' :: s := by
  induction t with
  | nil =>
    simp only [hasBA, Bool.false_eq_true, false_iff]
    rintro ⟨p, s, hp⟩
    cases p <;> simp at hp
  | cons c rest ih =>
    rw [hasBA_cons]
    constructor
    · intro h
      rcases Bool.or_eq_true_iff.mp h with h1 | h1
      · simp only [Bool.and_eq_true, decide_eq_true_eq] at h1
        obtain ⟨rfl, hh⟩ := h1
        cases rest with
        | nil => simp at hh
        | cons d r =>
          have hd : d = '\'' := by
            simp only [List.head?] at hh
            injection hh
          subst hd
          exact ⟨[], r, rfl⟩
      · obtain ⟨p, s, hp⟩ := ih.mp h1
        exact ⟨c :: p, s, by simp [hp]⟩
    · rintro ⟨p, s, hp⟩
      cases p with
      | nil =>
        simp only [List.nil_append, List.cons.injEq] at hp
        obtain ⟨rfl, rfl⟩ := hp
        simp
      | cons d p' =>
        simp only [List.cons_append, List.cons.injEq] at hp
        obtain ⟨rfl, hrest⟩ := hp
        have : hasBA rest = true := ih.mpr ⟨p', s, hrest⟩
        simp [this]

/-- `hasBBA` decides containment of the backslash+backslash+apostrophe sequence. -/
theorem hasBBA_iff (t : List Char) :
    hasBBA t = true ↔ ∃ p s, t = p ++ '\\' :: '\\' :: '\'' :: s := by
  induction t with
  | nil =>
    simp only [hasBBA, Bool.false_eq_true, false_iff]
    rintro ⟨p, s, hp⟩
    cases p <;> simp at hp
  | cons c rest ih =>
    constructor
    · intro h
      cases rest with
      | nil => simp [hasBBA] at h
      | cons d r =>
        cases r with
        | nil => simp [hasBBA] at h
        | cons e r' =>
          simp only [hasBBA, Bool.or_eq_true_iff, Bool.and_eq_true, decide_eq_true_eq] at h
          rcases h with ⟨⟨rfl, rfl⟩, rfl⟩ | h1
          · exact ⟨[], r', rfl⟩
          · obtain ⟨p, s, hp⟩ := ih.mp h1
            exact ⟨c :: p, s, by simp [hp]⟩
    · rintro ⟨p, s, hp⟩
      cases p with
      | nil =>
        simp only [List.nil_append, List.cons.injEq] at hp
        obtain ⟨rfl, rfl⟩ := hp
        simp [hasBBA]
      | cons d p' =>
        simp only [List.cons_append, List.cons.injEq] at hp
        obtain ⟨rfl, hrest⟩ := hp
        have h1 : hasBBA rest = true := ih.mpr ⟨p', s, hrest⟩
        cases rest with
        | nil => cases p' <;> simp at hrest
        | cons d2 r2 =>
          cases r2 with
          | nil => simp [hasBBA] at h1
          | cons d3 r3 => simp [hasBBA, h1]

/-- Replacement replaces the leftmost occurrence and recurses after it:
if no occurrence lies inside `p`, the characters of `p` are kept unchanged. -/
theorem replaceBA_append_first (s : List Char) :
    ∀ p : List Char, hasBA p = false →
      replaceBA (p ++ '\\' :: '\'' :: s) = p ++ '\'' :: replaceBA s := by
  intro p
  induction p with
  | nil => intro _; simp [replaceBA]
  | cons c p' ih =>
    intro h
    rw [hasBA_cons] at h
    rcases Bool.or_eq_false_iff.mp h with ⟨h1, h2⟩
    cases p' with
    | nil =>
      show replaceBA (c :: '\\' :: '\'' :: s) = c :: '\'' :: replaceBA s
      simp [replaceBA]
    | cons d p'' =>
      have hguard : (decide (c = '\\') && decide (d = '\'')) = false := by
        simpa using h1
      show replaceBA (c :: d :: (p'' ++ '\\' :: '\'' :: s)) =
        c :: d :: (p'' ++ '\'' :: replaceBA s)
      simp only [replaceBA, hguard, Bool.false_eq_true, if_false]
      exact congrArg (List.cons c) (ih h2)

/-- C1 (counterexample): `_fix_json` is not idempotent.  On the three-character
text backslash+backslash+apostrophe one application yields
backslash+apostrophe, which still matches, so a second application differs. -/
theorem fix_json_not_idempotent :
    fix_json (some (fix_json (some ['\\', '\\', '\'']))) ≠
      fix_json (some ['\\', '\\', '\'']) := by decide

/-- C1 (amended): `_fix_json` is idempotent on every text that does not contain
the three-character sequence backslash+backslash+apostrophe; in that case the
first application leaves no backslash+apostrophe to re-match. -/
theorem fix_json_idempotent_of_no_doubled_backslash (t : List Char)
    (h : hasBBA t = false) :
    fix_json (some (fix_json (some t))) = fix_json (some t) := by
  rw [fix_json_some_eq_replaceBA, fix_json_some_eq_replaceBA]
  exact replaceBA_of_not_hasBA (hasBA_replaceBA_of_not_hasBBA h)

theorem fix_json_idempotent_witness :
    hasBBA ['a', '\\', '\''] = false ∧
      fix_json (some (fix_json (some ['a', '\\', '\'']))) =
        fix_json (some ['a', '\\', '\'']) :=
  ⟨by decide, fix_json_idempotent_of_no_doubled_backslash ['a', '\\', '\''] (by decide)⟩

/-- C3: `_fix_json` is the identity on every text without the
backslash+apostrophe sequence, and on a text that decomposes as
`p ++ backslash :: apostrophe :: s` with no occurrence inside `p` it keeps `p`
unchanged, replaces that occurrence by a single apostrophe and recurses on the
remainder `s` — so each occurrence is replaced and no other character
changes. -/
theorem fix_json_replaces_each_occurrence (t p s : List Char) :
    (hasBA t = false → fix_json (some t) = t) ∧
    (t = p ++ '\\' :: '\'' :: s → hasBA p = false →
      fix_json (some t) = p ++ '\'' :: fix_json (some s)) := by
  constructor
  · intro h
    rw [fix_json_some_eq_replaceBA]
    exact replaceBA_of_not_hasBA h
  · intro ht hp
    subst ht
    rw [fix_json_some_eq_replaceBA, fix_json_some_eq_replaceBA]
    exact replaceBA_append_first s p hp

theorem fix_json_replaces_each_occurrence_witness :
    fix_json (some ['a', 'b']) = ['a', 'b'] ∧
      fix_json (some ['x', '\\', '\'', 'y']) = ['x'] ++ '\'' :: fix_json (some ['y']) :=
  ⟨(fix_json_replaces_each_occurrence ['a', 'b'] [] []).1 (by decide),
   (fix_json_replaces_each_occurrence ['x', '\\', '\'', 'y'] ['x'] ['y']).2
     (by decide) (by decide)⟩

/-- A Python value that may appear in an embedding input list: `None`, a
string, a boolean, or an integer. -/
inductive PyVal where
  | vNone
  | vStr (s : String)
  | vBool (b : Bool)
  | vInt (n : Int)
deriving DecidableEq

/-- Python truthiness (`if not t`). -/
def PyVal.truthy : PyVal → Bool
  | .vNone => false
  | .vStr s => decide (s ≠ "")
  | .vBool b => b
  | .vInt n => decide (n ≠ 0)

/-- Python `str(t)`. -/
def PyVal.toStr : PyVal → String
  | .vNone => "None"
  | .vStr s => s
  | .vBool true => "True"
  | .vBool false => "False"
  | .vInt n => Int.repr n

/-- One iteration of the loop body of `AliyunOptimizedEmbeddings._sanitize`:
`if not t: "unknown" elif isinstance(t, str): t else: str(t)`. -/
def sanitizeOne (t : PyVal) : String :=
  if t.truthy = false then "unknown"
  else match t with
    | .vStr s => s
    | _ => t.toStr

/-- `AliyunOptimizedEmbeddings._sanitize`: the loop appending into
`cleaned_texts`. -/
def sanitize (texts : List PyVal) : List String :=
  texts.foldl (fun cleaned t => cleaned ++ [sanitizeOne t]) []

theorem sanitize_foldl_acc (texts : List PyVal) :
    ∀ acc : List String,
      texts.foldl (fun cleaned t => cleaned ++ [sanitizeOne t]) acc =
        acc ++ texts.map sanitizeOne := by
  induction texts with
  | nil => intro acc; simp
  | cons t ts ih =>
    intro acc
    simp only [List.foldl_cons, List.map_cons]
    rw [ih (acc ++ [sanitizeOne t])]
    simp

theorem sanitize_eq_map (texts : List PyVal) : sanitize texts = texts.map sanitizeOne := by
  unfold sanitize
  rw [sanitize_foldl_acc texts []]
  simp

theorem sanitizeOne_eq (t : PyVal) :
    sanitizeOne t = if t.truthy = false then "unknown" else t.toStr := by
  cases t <;> rfl

theorem toDigitsCore_ne_nil (b : Nat) :
    ∀ (f n : Nat) (l : List Char), l ≠ [] → Nat.toDigitsCore b f n l ≠ [] := by
  intro f
  induction f with
  | zero => intro n l hl; simpa [Nat.toDigitsCore] using hl
  | succ f ih =>
    intro n l hl
    simp only [Nat.toDigitsCore]
    by_cases h : n / b = 0
    · simp [h]
    · simp only [h, if_false]
      exact ih (n / b) (Nat.digitChar (n % b) :: l) (by simp)

theorem toDigits_ne_nil (b n : Nat) : Nat.toDigits b n ≠ [] := by
  unfold Nat.toDigits
  simp only [Nat.toDigitsCore]
  by_cases h : n / b = 0
  · simp [h]
  · simp only [h, if_false]
    exact toDigitsCore_ne_nil b n (n / b) _ (by simp)

theorem asString_eq_empty {l : List Char} (h : l.asString = "") : l = [] :=
  congrArg String.data h

theorem nat_repr_ne_empty (m : Nat) : Nat.repr m ≠ "" :=
  fun h => toDigits_ne_nil 10 m (asString_eq_empty h)

theorem int_repr_ne_empty (n : Int) : Int.repr n ≠ "" := by
  cases n with
  | ofNat m => exact nat_repr_ne_empty m
  | negSucc m =>
    intro h
    have h2 := congrArg String.data h
    simp [Int.repr, String.data_append] at h2

/-- Every string produced by the sanitization is non-empty. -/
theorem sanitizeOne_ne_empty (t : PyVal) : sanitizeOne t ≠ "" := by
  rw [sanitizeOne_eq]
  cases t with
  | vNone => simp [PyVal.truthy]
  | vStr s =>
    by_cases hs : s = ""
    · simp [PyVal.truthy, hs]
    · simp [PyVal.truthy, hs, PyVal.toStr]
  | vBool b => cases b <;> simp [PyVal.truthy, PyVal.toStr]
  | vInt n =>
    by_cases hn : n = 0
    · simp [PyVal.truthy, hn]
    · simp only [PyVal.truthy, PyVal.toStr, hn, decide_not]
      simpa [hn] using int_repr_ne_empty n

/-- One item of the remote response `resp.data`. -/
structure RespItem (α : Type) where
  embedding : α

/-- Result of an embedding-adapter call: the returned vectors and the list of
payloads transmitted to the remote endpoint. -/
structure EmbedCall (α : Type) where
  output : List α
  sent : List (List String)
deriving DecidableEq

/-- `AliyunOptimizedEmbeddings.embed_documents`: sanitize, return `[]` with no
remote call when the cleaned list is empty, otherwise one remote call whose
response embeddings are returned in order. -/
def embed_documents {α : Type} (remote : List String → List (RespItem α))
    (texts : List PyVal) : EmbedCall α :=
  let cleaned := sanitize texts
  if cleaned.isEmpty then ⟨[], []⟩
  else ⟨(remote cleaned).map RespItem.embedding, [cleaned]⟩

/-- `AliyunOptimizedEmbeddings.aembed_documents`: same body, awaiting the
asynchronous client. -/
def aembed_documents {α : Type} (remote : List String → List (RespItem α))
    (texts : List PyVal) : EmbedCall α :=
  let cleaned := sanitize texts
  if cleaned.isEmpty then ⟨[], []⟩
  else ⟨(remote cleaned).map RespItem.embedding, [cleaned]⟩

/-- `clean_text = str(text) if text else "unknown"` in `embed_query`. -/
def embed_query_clean (text : PyVal) : String :=
  if text.truthy then text.toStr else "unknown"

/-- Result of an `embed_query` call: `resp.data[0].embedding` (absent when the
remote response is empty) and the transmitted payloads. -/
structure QueryCall (α : Type) where
  output : Option α
  sent : List (List String)
deriving DecidableEq

/-- `AliyunOptimizedEmbeddings.embed_query`. -/
def embed_query {α : Type} (remote : List String → List (RespItem α))
    (text : PyVal) : QueryCall α :=
  ⟨((remote [embed_query_clean text]).head?).map RespItem.embedding,
   [[embed_query_clean text]]⟩

/-- `AliyunOptimizedEmbeddings.aembed_query`: same body, asynchronous client. -/
def aembed_query {α : Type} (remote : List String → List (RespItem α))
    (text : PyVal) : QueryCall α :=
  ⟨((remote [embed_query_clean text]).head?).map RespItem.embedding,
   [[embed_query_clean text]]⟩

/-- C2 (counterexample): a truthy non-text entry is not replaced by the
placeholder: the integer 2 is sent as its string conversion "2". -/
theorem sanitize_keeps_truthy_nontext :
    sanitize [PyVal.vInt 2] ≠ ["unknown"] := by decide

/-- C2 (amended): every falsy entry of the input list (and the falsy argument
of `embed_query`) is replaced by the placeholder "unknown"; every truthy entry
is sent as its string conversion `str(t)`, which leaves text entries
unchanged. -/
theorem sanitize_placeholder_rule (texts : List PyVal) (q : PyVal) :
    sanitize texts =
      texts.map (fun t => if t.truthy = false then "unknown" else t.toStr) ∧
    embed_query_clean q = (if q.truthy = false then "unknown" else q.toStr) := by
  constructor
  · rw [sanitize_eq_map]
    exact List.map_congr_left (fun t _ => sanitizeOne_eq t)
  · cases hq : q.truthy <;> simp [embed_query_clean, hq]

/-- C4: assuming the remote endpoint returns one embedding per sent input in
order, `embed_documents` returns one vector per input text, in input order;
on the empty input it returns the empty list and transmits nothing. -/
theorem embed_documents_shape {α : Type} (remote : List String → List (RespItem α))
    (texts : List PyVal) (h : ∀ l, (remote l).length = l.length) :
    (embed_documents remote texts).output =
      (remote (texts.map sanitizeOne)).map RespItem.embedding ∧
    (embed_documents remote texts).output.length = texts.length ∧
    (texts = [] → embed_documents remote texts = ⟨[], []⟩) := by
  cases texts with
  | nil =>
    have hre : remote [] = [] := List.length_eq_zero.mp (by simpa using h [])
    refine ⟨?_, ?_, fun _ => rfl⟩
    · simp [embed_documents, sanitize, hre]
    · simp [embed_documents, sanitize]
  | cons t ts =>
    have hcl : sanitize (t :: ts) = sanitizeOne t :: ts.map sanitizeOne := by
      rw [sanitize_eq_map]; rfl
    have hne : (sanitize (t :: ts)).isEmpty = false := by simp [hcl]
    refine ⟨?_, ?_, by simp⟩
    · simp [embed_documents, hne, hcl]
    · simp only [embed_documents, hne, Bool.false_eq_true, if_false, List.length_map]
      rw [h (sanitize (t :: ts)), sanitize_eq_map, List.length_map]

theorem embed_documents_shape_witness :
    (embed_documents (fun l => l.map fun _ => RespItem.mk (0 : Nat))
        [PyVal.vStr "a"]).output.length = 1 ∧
    embed_documents (fun l => l.map fun _ => RespItem.mk (0 : Nat)) ([] : List PyVal) =
      ⟨[], []⟩ :=
  ⟨(embed_documents_shape _ [PyVal.vStr "a"] (fun l => by simp)).2.1,
   (embed_documents_shape _ [] (fun l => by simp)).2.2 rfl⟩

/-- C5: every element of every payload that `embed_documents` transmits to the
remote endpoint is a non-empty string. -/
theorem embed_documents_payload_nonempty {α : Type}
    (remote : List String → List (RespItem α)) (texts : List PyVal) :
    ∀ p ∈ (embed_documents remote texts).sent, ∀ s ∈ p, s ≠ "" := by
  intro p hp s hs
  have hsent : (embed_documents remote texts).sent = [] ∨
      (embed_documents remote texts).sent = [sanitize texts] := by
    unfold embed_documents
    by_cases h : (sanitize texts).isEmpty <;> simp [h]
  rcases hsent with h | h
  · rw [h] at hp; simp at hp
  · rw [h] at hp
    simp only [List.mem_singleton] at hp
    subst hp
    rw [sanitize_eq_map] at hs
    obtain ⟨t, _, rfl⟩ := List.mem_map.mp hs
    exact sanitizeOne_ne_empty t

theorem embed_documents_payload_nonempty_witness :
    ("unknown" : String) ≠ "" :=
  embed_documents_payload_nonempty (fun l => l.map fun _ => RespItem.mk (0 : Nat))
    [PyVal.vNone] ["unknown"] (by decide) "unknown" (by decide)

/-- One generation of a chat result: its `text` and, when the `message`
attribute is present, the message `content` (either may be `None`). -/
structure PyGen where
  text : Option (List Char)
  message : Option (Option (List Char))
deriving DecidableEq

/-- `FixJsonChatOpenAI._generate`: the superclass call is modelled by its
result `base` (the list of generations); the loop applies `_fix_json` to each
generation text and, when present, to the message content. -/
def chat_generate (base : List PyGen) : List PyGen :=
  base.map fun gen =>
    { text := some (fix_json gen.text),
      message := gen.message.map fun content => some (fix_json content) }

/-- `FixJsonChatOpenAI._agenerate`: same body, awaiting the asynchronous
superclass call. -/
def chat_agenerate (base : List PyGen) : List PyGen :=
  base.map fun gen =>
    { text := some (fix_json gen.text),
      message := gen.message.map fun content => some (fix_json content) }

/-- C9: the synchronous and asynchronous variants of each adapter operation
have identical semantics: on the same remote responses, `embed_documents` and
`aembed_documents` (and the query pair) agree, and `_generate` and
`_agenerate` apply the same JSON repair to texts and message contents. -/
theorem sync_async_identical {α : Type} (remote : List String → List (RespItem α))
    (texts : List PyVal) (q : PyVal) (base : List PyGen) :
    embed_documents remote texts = aembed_documents remote texts ∧
    embed_query remote q = aembed_query remote q ∧
    chat_generate base = chat_agenerate base :=
  ⟨rfl, rfl, rfl⟩

/-- C10: `_fix_json` maps every falsy input — `None` or the empty string — to
the empty string, so a null generation text or message content is normalized
to an empty string rather than passed through as null. -/
theorem fix_json_falsy_to_empty :
    fix_json Option.none = [] ∧ fix_json (some []) = [] ∧
    chat_generate [⟨Option.none, some Option.none⟩] = [⟨some [], some (some [])⟩] :=
  ⟨rfl, rfl, rfl⟩

/-- A JSON value of the results file. -/
inductive JVal where
  | jnull
  | jstr (s : String)
  | jarr (xs : List JVal)

/-- A record of `results.json`, as a Python dict. -/
abbrev PyDict := List (String × JVal)

/-- Python `r[k]`: `none` models the `KeyError` raised on a missing key. -/
def getField (r : PyDict) (k : String) : Option JVal :=
  (r.find? fun kv => kv.1 = k).map Prod.snd

/-- The list comprehension `[r[k] for r in results]`: any missing key makes
the whole load fail. -/
def loadColumn : List PyDict → String → Option (List JVal)
  | [], _ => some []
  | r :: rs, k =>
    match getField r k with
    | Option.none => Option.none
    | some v => (loadColumn rs k).map fun vs => v :: vs

/-- The `data` dictionary built after reading `results.json`. -/
structure LoadedData where
  question : List JVal
  answer : List JVal
  contexts : List JVal
  ground_truth : List JVal

/-- Building `data` from the parsed records: all four comprehensions. -/
def loadData (results : List PyDict) : Option LoadedData :=
  match loadColumn results "question", loadColumn results "answer",
      loadColumn results "contexts", loadColumn results "ground_truth" with
  | some q, some a, some c, some g => some ⟨q, a, c, g⟩
  | _, _, _, _ => Option.none

/-- C6 (counterexample): a record with no `question` key makes the load fail
(a `KeyError`) instead of yielding an empty string, and an explicit null field
value is passed through as null, not replaced by the empty string. -/
theorem load_no_fallback :
    loadData [[]] = Option.none ∧
    loadColumn [[("question", JVal.jnull)]] "question" = some [JVal.jnull] := by
  constructor
  · rfl
  · rfl

/-- C6 (amended): loading takes every field value as-is: it fails exactly when
some record lacks the key, and when it succeeds the loaded column is exactly
the records' values — nulls included — unchanged, with no empty-string
fallback. -/
theorem loadColumn_as_is (results : List PyDict) (k : String) :
    (loadColumn results k = Option.none ↔
      ∃ r ∈ results, getField r k = Option.none) ∧
    (∀ l, loadColumn results k = some l →
      l = results.filterMap fun r => getField r k) := by
  induction results with
  | nil =>
    refine ⟨by simp [loadColumn], ?_⟩
    intro l hl
    simp only [loadColumn, Option.some.injEq] at hl
    simp [← hl]
  | cons r rs ih =>
    cases hf : getField r k with
    | none =>
      refine ⟨?_, ?_⟩
      · simp only [loadColumn, hf, true_iff]
        exact ⟨r, List.mem_cons_self r rs, hf⟩
      · intro l hl
        simp [loadColumn, hf] at hl
    | some v =>
      refine ⟨?_, ?_⟩
      · simp only [loadColumn, hf]
        constructor
        · intro hmap
          cases hrs : loadColumn rs k with
          | none =>
            obtain ⟨x, hx, hgx⟩ := ih.1.mp hrs
            exact ⟨x, List.mem_cons_of_mem r hx, hgx⟩
          | some vs => rw [hrs] at hmap; simp at hmap
        · rintro ⟨x, hx, hgx⟩
          rcases List.mem_cons.mp hx with rfl | hx'
          · rw [hf] at hgx; cases hgx
          · rw [ih.1.mpr ⟨x, hx', hgx⟩]
            rfl
      · intro l hl
        simp only [loadColumn, hf] at hl
        cases hrs : loadColumn rs k with
        | none => rw [hrs] at hl; cases hl
        | some vs =>
          rw [hrs] at hl
          simp only [Option.map_some', Option.some.injEq] at hl
          rw [← hl]
          simp [List.filterMap_cons, hf, ih.2 vs hrs]

theorem loadColumn_as_is_witness :
    [JVal.jnull] =
      List.filterMap (fun r => getField r "question") [[("question", JVal.jnull)]] :=
  (loadColumn_as_is [[("question", JVal.jnull)]] "question").2 [JVal.jnull] rfl

/-- State at the end of the run: an exception propagating out of the script
(`raised`), and the console messages printed after the evaluation. -/
structure RunTail where
  raised : Option String
  log : List String
deriving DecidableEq

/-- Python `try: ... except Exception as e: ...` around a fallible body. -/
def pyTry {α β : Type} (body : Except String α) (onOk : α → β)
    (handler : String → β) : β :=
  match body with
  | .ok a => onOk a
  | .error e => handler e

/-- The statements of the analysis stage: `llm.invoke` (modelled by the
content it returns or the exception it raises) followed by writing
`report_analysis.md`; an exception in either statement propagates. -/
def analysisBody (invoke : Except String String)
    (write : String → Except String Unit) : Except String Unit :=
  match invoke with
  | .error e => .error e
  | .ok analysis => write analysis

/-- The analysis stage proper: the body inside the `try`/`except` that prints
the failure reason on any exception. -/
def analysisStage (invoke : Except String String)
    (write : String → Except String Unit) : RunTail :=
  pyTry (analysisBody invoke write)
    (fun _ => { raised := Option.none, log := ["Analysis saved to report_analysis.md"] })
    (fun e => { raised := Option.none, log := ["Error generating analysis: " ++ e] })

/-- The tail of the script after the evaluation: `df.to_csv` (not wrapped in
any `try`), then the analysis stage. -/
def exportAndAnalyze (toCsv : Except String Unit) (invoke : Except String String)
    (write : String → Except String Unit) : RunTail :=
  match toCsv with
  | .error e => { raised := some e, log := [] }
  | .ok _ =>
    let tail := analysisStage invoke write
    { raised := tail.raised, log := "Metrics saved to metrics_report.csv" :: tail.log }

/-- C7: once the metrics report is written, any error raised while generating
the narrative or persisting it is caught and logged, and the run ends without
raising. -/
theorem analysis_stage_never_raises (invoke : Except String String)
    (write : String → Except String Unit) :
    (exportAndAnalyze (.ok ()) invoke write).raised = Option.none ∧
    (∀ e, invoke = .error e →
      "Error generating analysis: " ++ e ∈ (exportAndAnalyze (.ok ()) invoke write).log) ∧
    (∀ c e, invoke = .ok c → write c = .error e →
      "Error generating analysis: " ++ e ∈ (exportAndAnalyze (.ok ()) invoke write).log) := by
  refine ⟨?_, ?_, ?_⟩
  · cases invoke with
    | error e => rfl
    | ok c =>
      cases hw : write c with
      | error e =>
        simp [exportAndAnalyze, analysisStage, analysisBody, pyTry, hw]
      | ok u =>
        simp [exportAndAnalyze, analysisStage, analysisBody, pyTry, hw]
  · rintro e rfl
    simp [exportAndAnalyze, analysisStage, analysisBody, pyTry]
  · rintro c e rfl hw
    simp [exportAndAnalyze, analysisStage, analysisBody, pyTry, hw]

theorem analysis_stage_never_raises_witness :
    (exportAndAnalyze (.ok ()) (.error "boom") (fun _ => .ok ())).raised = Option.none ∧
    "Error generating analysis: " ++ "boom" ∈
      (exportAndAnalyze (.ok ()) (.error "boom") (fun _ => .ok ())).log :=
  ⟨(analysis_stage_never_raises (.error "boom") (fun _ => .ok ())).1,
   (analysis_stage_never_raises (.error "boom") (fun _ => .ok ())).2.1 "boom" rfl⟩

/-- C8: an I/O error while exporting the results table propagates out of the
run — `df.to_csv` has no surrounding error suppression, unlike the analysis
stage. -/
theorem export_propagates_error (e : String) (invoke : Except String String)
    (write : String → Except String Unit) :
    (exportAndAnalyze (.error e) invoke write).raised = some e := rfl
